import Mathlib

/-!
# Verification of the LuminS core (`src/lumins/file_ops.rs`)

A shallow embedding of the LuminS directory-synchronization core into Lean 4,
together with theorems settling the frozen specification claims.

Modelling conventions:
* A filesystem path (`PathBuf`) is a list of components (`List String`);
  `Path::join` is list append, `components().count()` is list length.
* File contents are byte lists (`List Nat`); the filesystem visible to the
  hashing/copying code is a map `List String → Option (List Nat)` where `none`
  means the path cannot be opened or read.
* The external pure hash functions (`seahash::hash`, BLAKE2b) are parameters of
  the embedded definitions: every claim holds for an arbitrary digest function.
* The Rust trait `FileOps` (generic parameter `S: FileOps` of the bulk
  operations) is a structure of capabilities.
* The shared progress bar and the order of removal calls are made observable by
  threading an explicit execution state (filesystem, counter, trace).
-/

namespace LuminS

/-- A filesystem path, as its list of components. -/
abbrev PathC := List String

/-- File contents as a list of bytes. -/
abbrev Bytes := List Nat

/-- The readable filesystem: maps an absolute path to its contents, `none`
when the file at that path cannot be opened or read. -/
def FS := PathC → Option Bytes

/-- Embeds `struct File { path: PathBuf, size: u64 }`. -/
structure File where
  path : PathC
  size : Nat
deriving DecidableEq, Repr

/-- Embeds `struct Dir { path: PathBuf }`. -/
structure Dir where
  path : PathC
deriving DecidableEq, Repr

/-- Embeds `struct Symlink { path: PathBuf, target: PathBuf }`. -/
structure Symlink where
  path : PathC
  target : PathC
deriving DecidableEq, Repr

/-- Embeds the Rust trait `FileOps` (path accessor plus the two
filesystem-mutating capabilities `remove` and `copy`, whose OS-level failures
are absorbed by the implementations, so they are total state transformers). -/
structure FileOps (α : Type) where
  path : α → PathC
  remove : α → PathC → FS → FS
  copy : α → PathC → PathC → FS → FS

/-- Pointwise update of the filesystem model. -/
def FS.update (fs : FS) (p : PathC) (v : Option Bytes) : FS :=
  fun q => if q = p then v else fs q

/-- `impl FileOps for File`: `remove` is `fs::remove_file` (the entry vanishes;
an already-absent file stays absent, the error being only logged), `copy` is
`fs::copy` (overwrite destination with source bytes; a source that cannot be
read leaves the destination unchanged, the error being only logged). -/
def fileOps : FileOps File where
  path f := f.path
  remove _ p fs := fs.update p none
  copy _ src dest fs :=
    match fs src with
    | some c => fs.update dest (some c)
    | none => fs

/-- `impl FileOps for Dir`: removal is `fs::remove_dir`; in this byte-level
filesystem model a directory stores no bytes, so removal clears the path and
creation (`fs::create_dir_all`) stores an empty marker. -/
def dirOps : FileOps Dir where
  path d := d.path
  remove _ p fs := fs.update p none
  copy _ _ dest fs := fs.update dest (some [])

/-- Embeds `bitflags! { struct Flag: u32 }` from `parse.rs`. -/
abbrev Flag := Nat

/-- `const NO_DELETE = 0x1`. -/
def Flag.noDelete : Flag := 1

/-- `const SECURE = 0x2`. -/
def Flag.SECURE : Flag := 2

/-- `const VERBOSE = 0x4`. -/
def Flag.VERBOSE : Flag := 4

/-- `const SEQUENTIAL = 0x8`. -/
def Flag.SEQUENTIAL : Flag := 8

/-- `bitflags`' `contains`: all bits of `m` are set in `f`. -/
def Flag.contains (f m : Flag) : Bool :=
  Nat.land f m == m

/-- Embeds `hash_file`: read the file at `location + file_to_hash.path()` and
apply the (external, pure) 64-bit seahash function `hashFn` to its bytes;
`none` when the read fails. -/
def hash_file (ops : FileOps α) (hashFn : Bytes → Nat) (file_to_hash : α)
    (location : PathC) (fs : FS) : Option Nat :=
  (fs (location ++ ops.path file_to_hash)).map hashFn

/-- Embeds `hash_file_secure`: open the file at `location + path` and stream
its bytes through the (external, pure) BLAKE2b digest `hashSec`; `none` when
either the open or the streaming read fails (both collapse to an unreadable
path in the `FS` model). -/
def hash_file_secure (ops : FileOps α) (hashSec : Bytes → Bytes) (file_to_hash : α)
    (location : PathC) (fs : FS) : Option Bytes :=
  (fs (location ++ ops.path file_to_hash)).map hashSec

/-- Embeds `copy_file`: resolve source and destination absolute paths by
joining each base with the entry's relative path, then invoke the entry's
`copy` capability. -/
def copy_file (ops : FileOps α) (file_to_copy : α) (src dest : PathC) (fs : FS) : FS :=
  ops.copy file_to_copy (src ++ ops.path file_to_copy) (dest ++ ops.path file_to_copy) fs

/-- Embeds `compare_and_copy_file`. The returned `Bool` makes the copy-or-skip
decision observable: `true` exactly when `copy_file` was invoked. -/
def compare_and_copy_file (ops : FileOps α) (hashFn : Bytes → Nat)
    (hashSec : Bytes → Bytes) (file_to_compare : α) (src dest : PathC)
    (flags : Flag) (fs : FS) : FS × Bool :=
  if Flag.contains flags Flag.SECURE then
    let src_file_hash_secure := hash_file_secure ops hashSec file_to_compare src fs
    if src_file_hash_secure = none then
      (copy_file ops file_to_compare src dest fs, true)
    else
      let dest_file_hash_secure := hash_file_secure ops hashSec file_to_compare dest fs
      if src_file_hash_secure ≠ dest_file_hash_secure then
        (copy_file ops file_to_compare src dest fs, true)
      else
        (fs, false)
  else
    let src_file_hash := hash_file ops hashFn file_to_compare src fs
    if src_file_hash = none then
      (copy_file ops file_to_compare src dest fs, true)
    else
      let dest_file_hash := hash_file ops hashFn file_to_compare dest fs
      if src_file_hash ≠ dest_file_hash then
        (copy_file ops file_to_compare src dest fs, true)
      else
        (fs, false)

/-- Execution state threaded through the bulk operations: the filesystem, the
shared progress counter (`PROGRESS_BAR`), and the observable trace of
removal calls (each element is the absolute path passed to `remove`). -/
structure ExecState where
  fs : FS
  progress : Nat
  trace : List PathC

/-- Embeds `compare_and_copy_files`: per entry, run `compare_and_copy_file`
then advance the progress counter by 2. The rayon parallel `for_each` is
modelled by folding over one admissible schedule (the input order); the claims
proved about it are order-insensitive. -/
def compare_and_copy_files (ops : FileOps α) (hashFn : Bytes → Nat)
    (hashSec : Bytes → Bytes) (files_to_compare : List α) (src dest : PathC)
    (flags : Flag) (st : ExecState) : ExecState :=
  files_to_compare.foldl
    (fun st file =>
      { st with
        fs := (compare_and_copy_file ops hashFn hashSec file src dest flags st.fs).1
        progress := st.progress + 2 })
    st

/-- Embeds `copy_files`: per entry, `copy_file` then progress `+1`. -/
def copy_files (ops : FileOps α) (files_to_copy : List α) (src dest : PathC)
    (st : ExecState) : ExecState :=
  files_to_copy.foldl
    (fun st file =>
      { st with
        fs := copy_file ops file src dest st.fs
        progress := st.progress + 1 })
    st

/-- Embeds `delete_files` (parallel, unordered): per entry, resolve
`location + path`, invoke `remove`, progress `+1`. Modelled over one
admissible schedule (the input order). -/
def delete_files (ops : FileOps α) (files_to_delete : List α) (location : PathC)
    (st : ExecState) : ExecState :=
  files_to_delete.foldl
    (fun st file =>
      let path := location ++ ops.path file
      { fs := ops.remove file path st.fs
        progress := st.progress + 1
        trace := st.trace ++ [path] })
    st

/-- Embeds `delete_files_sequential`: identical per-entry body, but the
iteration is a plain `for` loop, so the removal calls happen strictly in
input order. -/
def delete_files_sequential (ops : FileOps α) (files_to_delete : List α)
    (location : PathC) (st : ExecState) : ExecState :=
  files_to_delete.foldl
    (fun st file =>
      let path := location ++ ops.path file
      { fs := ops.remove file path st.fs
        progress := st.progress + 1
        trace := st.trace ++ [path] })
    st

/-- Embeds `sort_files`: sort (unstable) in descending order of
`path().components().count()`. `par_sort_unstable_by` guarantees exactly a
permutation of the input that is sorted under the comparator; `mergeSort` is
one such implementation. -/
def sort_files (ops : FileOps α) (files_to_sort : List α) : List α :=
  files_to_sort.mergeSort
    (fun a b => (ops.path b).length ≤ (ops.path a).length)

/-- Embeds `FileSets`: the three sets of a snapshot. The Rust `HashSet`s are
modelled as `Finset`s over the structurally-compared entry types. -/
structure FileSets where
  files : Finset File
  dirs : Finset Dir
  symlinks : Finset Symlink
deriving DecidableEq

/-- One raw directory entry as observed by `read_dir` in
`get_all_files_helper`, including every failure point of the loop body:
* `errEnt` — the iterator yields `Err` (`file.is_err()`);
* `badMeta` — `file.metadata()` fails;
* `fileE` — metadata says regular file, with its byte length;
* `dirE` — metadata says directory; `sub = none` models a subdirectory whose
  own `read_dir` fails (the recursive call returns `Err` and is caught),
  `sub = some l` its successfully-read listing;
* `linkE` — neither file nor dir; `target = none` models a failing
  `fs::read_link`, `target = some t` the stored link target. -/
inductive DEnt where
  | errEnt : DEnt
  | badMeta (name : String) : DEnt
  | fileE (name : String) (size : Nat) : DEnt
  | dirE (name : String) (sub : Option (List DEnt)) : DEnt
  | linkE (name : String) (target : Option PathC) : DEnt

/-- Embeds the loop body of `get_all_files_helper` over an already-read
listing. `base` is the relative path of the directory being listed (the
source records `path.strip_prefix(base)`, i.e. the path relative to the
traversal root, which for an entry named `n` of this directory is
`base ++ [n]`). Failed entries are skipped (`continue`); note the source
inserts a subdirectory's `Dir` record *before* recursing, so a subdirectory
whose recursive read fails is still recorded. -/
def get_all_files_helper : List DEnt → PathC → FileSets
  | [], _ => ⟨∅, ∅, ∅⟩
  | .errEnt :: rest, base => get_all_files_helper rest base
  | .badMeta _ :: rest, base => get_all_files_helper rest base
  | .fileE n sz :: rest, base =>
      let s := get_all_files_helper rest base
      ⟨insert ⟨base ++ [n], sz⟩ s.files, s.dirs, s.symlinks⟩
  | .dirE n none :: rest, base =>
      let s := get_all_files_helper rest base
      ⟨s.files, insert ⟨base ++ [n]⟩ s.dirs, s.symlinks⟩
  | .dirE n (some sub) :: rest, base =>
      let sub_sets := get_all_files_helper sub (base ++ [n])
      let s := get_all_files_helper rest base
      ⟨sub_sets.files ∪ s.files,
       insert ⟨base ++ [n]⟩ (sub_sets.dirs ∪ s.dirs),
       sub_sets.symlinks ∪ s.symlinks⟩
  | .linkE _ none :: rest, base => get_all_files_helper rest base
  | .linkE n (some tgt) :: rest, base =>
      let s := get_all_files_helper rest base
      ⟨s.files, s.dirs, insert ⟨base ++ [n], tgt⟩ s.symlinks⟩

/-- Embeds `get_all_files`: `root = none` models a root whose `read_dir`
fails (`src.read_dir()?` propagates the error); otherwise the traversal of
the listing always succeeds. -/
def get_all_files (root : Option (List DEnt)) : Except Unit FileSets :=
  match root with
  | none => .error ()
  | some ents => .ok (get_all_files_helper ents [])

/-- The name of a raw directory entry, when it has one. -/
def DEnt.nameOf : DEnt → Option String
  | .errEnt => none
  | .badMeta n => some n
  | .fileE n _ => some n
  | .dirE n _ => some n
  | .linkE n _ => some n

/-- The names occurring in a listing. -/
def entNames (ents : List DEnt) : List String :=
  ents.filterMap DEnt.nameOf

mutual

/-- Well-formedness of a raw listing, reflecting a real filesystem: the
entry names within each directory are pairwise distinct, recursively. -/
def listingWF : List DEnt → Bool
  | ents => decide (entNames ents).Nodup && subsWF ents

/-- All successfully-read sub-listings of the entries are well-formed. -/
def subsWF : List DEnt → Bool
  | [] => true
  | .dirE _ (some sub) :: rest => listingWF sub && subsWF rest
  | _ :: rest => subsWF rest

end

/-! ## Theorems -/

/-- A strict prefix of a component list is strictly shorter. -/
theorem length_lt_of_strict_pre {p q : PathC} (hp : p <+: q) (hne : p ≠ q) :
    p.length < q.length := by
  rcases Nat.lt_or_ge p.length q.length with h | h
  · exact h
  · exact absurd (List.IsPrefix.eq_of_length hp
      (Nat.le_antisymm hp.length_le h)) hne

/-- The output of `sort_files` is sorted by non-increasing component count. -/
theorem sort_files_sorted (ops : FileOps α) (l : List α) :
    List.Sorted (fun a b => (ops.path b).length ≤ (ops.path a).length)
      (sort_files ops l) := by
  have h := @List.sorted_mergeSort α
    (fun a b => decide ((ops.path b).length ≤ (ops.path a).length))
    (fun a b c h1 h2 => by
      simp only [decide_eq_true_eq] at h1 h2 ⊢; exact le_trans h2 h1)
    (fun a b => by
      simp only [Bool.or_eq_true, decide_eq_true_eq]; exact le_total _ _)
    l
  exact h.imp (fun hab => by simpa using hab)

/-- C2: the Deletion-Order Sorter orders entries by descending count of path
components; consequently, whenever the path of the output entry at position
`i` is a strict prefix of the path of the output entry at position `j`, the
deeper entry occurs earlier: `j < i`. -/
theorem sort_files_depth_ordering (ops : FileOps α) (l : List α) (d₁ d₂ : α)
    (i j : Nat) (hi : i < (sort_files ops l).length)
    (hj : j < (sort_files ops l).length)
    (hpre : ops.path ((sort_files ops l).getD i d₁)
      <+: ops.path ((sort_files ops l).getD j d₂))
    (hne : ops.path ((sort_files ops l).getD i d₁)
      ≠ ops.path ((sort_files ops l).getD j d₂)) :
    List.Sorted (fun a b => (ops.path b).length ≤ (ops.path a).length)
      (sort_files ops l) ∧ j < i := by
  refine ⟨sort_files_sorted ops l, ?_⟩
  rw [List.getD_eq_getElem (sort_files ops l) d₁ hi,
      List.getD_eq_getElem (sort_files ops l) d₂ hj] at hpre hne
  have hlen : (ops.path ((sort_files ops l)[i])).length
      < (ops.path ((sort_files ops l)[j])).length :=
    length_lt_of_strict_pre hpre hne
  rcases lt_trichotomy i j with hij | hij | hij
  · have hrel := (sort_files_sorted ops l).rel_get_of_lt
      (a := ⟨i, hi⟩) (b := ⟨j, hj⟩) (Fin.mk_lt_mk.mpr hij)
    simp only [List.get_eq_getElem] at hrel
    omega
  · exfalso
    apply hne
    subst hij
    rfl
  · exact hij

/-- C10: the output of `sort_files` is a permutation of its input — same
length, same multiset of entries; nothing is dropped, duplicated, or
synthesized. -/
theorem sort_files_perm (ops : FileOps α) (l : List α) :
    (sort_files ops l).Perm l ∧ (sort_files ops l).length = l.length :=
  ⟨List.mergeSort_perm l _, (List.mergeSort_perm l _).length_eq⟩

/-- C1: `compare_and_copy_file` performs a copy if and only if the digests of
the chosen strategy differ or the source digest is absent; in particular,
when both digests exist and are equal no copy is performed. A destination
that is unreadable yields an absent destination digest, which is unequal to
the present source digest, so it also forces a copy. -/
theorem compare_and_copy_file_copies_iff (ops : FileOps α) (hashFn : Bytes → Nat)
    (hashSec : Bytes → Bytes) (f : α) (src dest : PathC) (flags : Flag) (fs : FS) :
    (Flag.contains flags Flag.SECURE = true →
      ((compare_and_copy_file ops hashFn hashSec f src dest flags fs).2 = true ↔
        (hash_file_secure ops hashSec f src fs = none ∨
         hash_file_secure ops hashSec f src fs
           ≠ hash_file_secure ops hashSec f dest fs))) ∧
    (Flag.contains flags Flag.SECURE = false →
      ((compare_and_copy_file ops hashFn hashSec f src dest flags fs).2 = true ↔
        (hash_file ops hashFn f src fs = none ∨
         hash_file ops hashFn f src fs ≠ hash_file ops hashFn f dest fs))) := by
  constructor
  · intro hsec
    unfold compare_and_copy_file
    simp only [hsec, if_true]
    by_cases h1 : hash_file_secure ops hashSec f src fs = none
    · simp [h1]
    · by_cases h2 : hash_file_secure ops hashSec f src fs
          = hash_file_secure ops hashSec f dest fs
      · have h3 : hash_file_secure ops hashSec f dest fs ≠ none := h2 ▸ h1
        simp [h1, h2, h3]
      · simp [h1, h2]
  · intro hsec
    unfold compare_and_copy_file
    simp only [hsec, Bool.false_eq_true, if_false]
    by_cases h1 : hash_file ops hashFn f src fs = none
    · simp [h1]
    · by_cases h2 : hash_file ops hashFn f src fs = hash_file ops hashFn f dest fs
      · have h3 : hash_file ops hashFn f dest fs ≠ none := h2 ▸ h1
        simp [h1, h2, h3]
      · simp [h1, h2]

theorem copy_files_progress (ops : FileOps α) (files : List α) (src dest : PathC)
    (st : ExecState) :
    (copy_files ops files src dest st).progress = st.progress + files.length := by
  induction files generalizing st with
  | nil => rfl
  | cons f rest ih =>
      show (copy_files ops rest src dest _).progress = _
      rw [ih]
      simp only [List.length_cons]
      omega

theorem delete_files_progress (ops : FileOps α) (files : List α) (location : PathC)
    (st : ExecState) :
    (delete_files ops files location st).progress = st.progress + files.length := by
  induction files generalizing st with
  | nil => rfl
  | cons f rest ih =>
      show (delete_files ops rest location _).progress = _
      rw [ih]
      simp only [List.length_cons]
      omega

theorem delete_files_sequential_progress (ops : FileOps α) (files : List α)
    (location : PathC) (st : ExecState) :
    (delete_files_sequential ops files location st).progress
      = st.progress + files.length := by
  induction files generalizing st with
  | nil => rfl
  | cons f rest ih =>
      show (delete_files_sequential ops rest location _).progress = _
      rw [ih]
      simp only [List.length_cons]
      omega

theorem compare_and_copy_files_progress (ops : FileOps α) (hashFn : Bytes → Nat)
    (hashSec : Bytes → Bytes) (files : List α) (src dest : PathC) (flags : Flag)
    (st : ExecState) :
    (compare_and_copy_files ops hashFn hashSec files src dest flags st).progress
      = st.progress + 2 * files.length := by
  induction files generalizing st with
  | nil => simp [compare_and_copy_files]
  | cons f rest ih =>
      show (compare_and_copy_files ops hashFn hashSec rest src dest flags _).progress = _
      rw [ih]
      simp only [List.length_cons]
      omega

/-- C5: over a batch of `N` entries, `copy_files`, `delete_files` and
`delete_files_sequential` advance the shared progress counter by exactly `N`,
and `compare_and_copy_files` by exactly `2·N`, unconditionally — the
increment happens per entry irrespective of the per-entry operation's
outcome, for every filesystem state, flag set and capability implementation. -/
theorem bulk_ops_progress (ops : FileOps α) (hashFn : Bytes → Nat)
    (hashSec : Bytes → Bytes) (files : List α) (src dest location : PathC)
    (flags : Flag) (st : ExecState) :
    (copy_files ops files src dest st).progress = st.progress + files.length ∧
    (delete_files ops files location st).progress = st.progress + files.length ∧
    (delete_files_sequential ops files location st).progress
      = st.progress + files.length ∧
    (compare_and_copy_files ops hashFn hashSec files src dest flags st).progress
      = st.progress + 2 * files.length :=
  ⟨copy_files_progress ops files src dest st,
   delete_files_progress ops files location st,
   delete_files_sequential_progress ops files location st,
   compare_and_copy_files_progress ops hashFn hashSec files src dest flags st⟩

/-- C9: `delete_files_sequential` issues its removal calls strictly in input
order — the trace of resolved paths passed to `remove` is exactly the input
sequence's resolved paths in the same order — and its per-entry removal
semantics coincides with that of the parallel `delete_files`. -/
theorem delete_files_sequential_ordered (ops : FileOps α) (files : List α)
    (location : PathC) (st : ExecState) :
    (delete_files_sequential ops files location st).trace
      = st.trace ++ files.map (fun f => location ++ ops.path f) ∧
    ∀ (f : α) (st' : ExecState),
      delete_files_sequential ops [f] location st' = delete_files ops [f] location st' := by
  refine ⟨?_, fun f st' => rfl⟩
  induction files generalizing st with
  | nil => simp [delete_files_sequential]
  | cons f rest ih =>
      show (delete_files_sequential ops rest location _).trace = _
      rw [ih]
      simp

/-- C6: `hash_file` and `hash_file_secure` return `none` exactly when the
file at `location + path` cannot be opened or read, and otherwise return the
digest of the file's full byte content; an absent result never equals a
present digest. -/
theorem hash_file_absent_semantics (ops : FileOps α) (hashFn : Bytes → Nat)
    (hashSec : Bytes → Bytes) (f : α) (location : PathC) (fs : FS) :
    (hash_file ops hashFn f location fs = none ↔ fs (location ++ ops.path f) = none) ∧
    (∀ c, fs (location ++ ops.path f) = some c →
      hash_file ops hashFn f location fs = some (hashFn c)) ∧
    (hash_file_secure ops hashSec f location fs = none ↔
      fs (location ++ ops.path f) = none) ∧
    (∀ c, fs (location ++ ops.path f) = some c →
      hash_file_secure ops hashSec f location fs = some (hashSec c)) ∧
    (hash_file ops hashFn f location fs = none →
      ∀ d, hash_file ops hashFn f location fs ≠ some d) ∧
    (hash_file_secure ops hashSec f location fs = none →
      ∀ d, hash_file_secure ops hashSec f location fs ≠ some d) := by
  refine ⟨?_, ?_, ?_, ?_, ?_, ?_⟩
  · simp [hash_file, Option.map_eq_none']
  · intro c hc; simp [hash_file, hc]
  · simp [hash_file_secure, Option.map_eq_none']
  · intro c hc; simp [hash_file_secure, hc]
  · intro h d; rw [h]; exact fun hcon => Option.noConfusion hcon
  · intro h d; rw [h]; exact fun hcon => Option.noConfusion hcon

/-- C7: the digests are functions of the file's byte content only: if two
(possibly distinct) entries at two locations in two filesystem states have
the same readable content, their fast digests agree and their secure digests
agree — independent of path and of the recorded size field. -/
theorem hash_file_content_only (ops₁ : FileOps α) (ops₂ : FileOps β)
    (hashFn : Bytes → Nat) (hashSec : Bytes → Bytes) (f₁ : α) (f₂ : β)
    (loc₁ loc₂ : PathC) (fs₁ fs₂ : FS) (c : Bytes)
    (h₁ : fs₁ (loc₁ ++ ops₁.path f₁) = some c)
    (h₂ : fs₂ (loc₂ ++ ops₂.path f₂) = some c) :
    hash_file ops₁ hashFn f₁ loc₁ fs₁ = hash_file ops₂ hashFn f₂ loc₂ fs₂ ∧
    hash_file_secure ops₁ hashSec f₁ loc₁ fs₁
      = hash_file_secure ops₂ hashSec f₂ loc₂ fs₂ := by
  constructor
  · simp [hash_file, h₁, h₂]
  · simp [hash_file_secure, h₁, h₂]

/-- C3: the Tree Snapshot Builder fails exactly when the root itself cannot
be read; for every readable root listing — whatever entry-level failures it
contains (`DEnt` encodes every failure point of the loop body) — the call
returns `Ok` with the traversed `FileSets`. -/
theorem get_all_files_error_iff_root :
    (get_all_files none = .error ()) ∧
    (∀ ents : List DEnt,
      get_all_files (some ents) = .ok (get_all_files_helper ents [])) :=
  ⟨rfl, fun _ => rfl⟩

/-- C4 is refuted by this concrete input: a root containing a single
subdirectory `d` whose own `read_dir` fails. The claim says the failed entry
appears in none of the three sets, but the traversal records `d` in `dirs`
(the source inserts the `Dir` record before recursing, and the repository's
own test `multi_level_insufficient_permissions` expects exactly this). -/
theorem failed_subdir_still_recorded :
    ∃ s, get_all_files (some [DEnt.dirE "d" none]) = Except.ok s
      ∧ Dir.mk ["d"] ∈ s.dirs := by
  refine ⟨_, rfl, ?_⟩
  simp [get_all_files_helper]

/-- Entries whose processing fails before anything is recorded: an `Err`
from the `read_dir` iterator, a failing `metadata()` call, and a failing
`fs::read_link` — the loop logs and `continue`s. -/
def DEnt.isSkipped : DEnt → Bool
  | .errEnt => true
  | .badMeta _ => true
  | .linkE _ none => true
  | _ => false

theorem helper_skip_middle (e : DEnt) (he : e.isSkipped = true) (base : PathC)
    (pre post : List DEnt) :
    get_all_files_helper (pre ++ e :: post) base
      = get_all_files_helper (pre ++ post) base := by
  induction pre generalizing base with
  | nil =>
      cases e with
      | errEnt => simp [get_all_files_helper]
      | badMeta _ => simp [get_all_files_helper]
      | fileE _ _ => simp [DEnt.isSkipped] at he
      | dirE _ _ => simp [DEnt.isSkipped] at he
      | linkE _ tgt =>
          cases tgt with
          | none => simp [get_all_files_helper]
          | some _ => simp [DEnt.isSkipped] at he
  | cons h pre ih =>
      cases h with
      | errEnt => simpa [get_all_files_helper] using ih base
      | badMeta _ => simpa [get_all_files_helper] using ih base
      | fileE _ _ => simp [get_all_files_helper, ih base]
      | dirE _ sub =>
          cases sub with
          | none => simp [get_all_files_helper, ih base]
          | some _ => simp [get_all_files_helper, ih base]
      | linkE _ tgt =>
          cases tgt with
          | none => simpa [get_all_files_helper] using ih base
          | some _ => simp [get_all_files_helper, ih base]

theorem helper_dirfail_middle (n : String) (base : PathC) (pre post : List DEnt) :
    get_all_files_helper (pre ++ DEnt.dirE n none :: post) base
      = { get_all_files_helper (pre ++ post) base with
          dirs := insert ⟨base ++ [n]⟩
            (get_all_files_helper (pre ++ post) base).dirs } := by
  induction pre generalizing base with
  | nil => simp [get_all_files_helper]
  | cons h pre ih =>
      cases h with
      | errEnt => simpa [get_all_files_helper] using ih base
      | badMeta _ => simpa [get_all_files_helper] using ih base
      | fileE _ _ => simp [get_all_files_helper, ih base]
      | dirE _ sub =>
          cases sub with
          | none => simp [get_all_files_helper, ih base, Finset.Insert.comm]
          | some _ =>
              simp [get_all_files_helper, ih base, Finset.union_insert,
                Finset.Insert.comm]
      | linkE _ tgt =>
          cases tgt with
          | none => simpa [get_all_files_helper] using ih base
          | some _ => simp [get_all_files_helper, ih base]

/-- C4 (amended): an entry-level failure at an unreadable directory entry,
unreadable metadata, or broken link read causes that single entry to
contribute nothing to the snapshot, while the rest of the listing is
traversed unchanged; a recursive failure inside a subdirectory skips all of
the subdirectory's descendants, but the subdirectory's own `Dir` record —
inserted before the recursive call — still appears in the `dirs` set. -/
theorem entry_failures_skip_entry (base : PathC) (pre post : List DEnt) :
    (∀ e : DEnt, e.isSkipped = true →
      get_all_files_helper (pre ++ e :: post) base
        = get_all_files_helper (pre ++ post) base) ∧
    (∀ n : String,
      get_all_files_helper (pre ++ DEnt.dirE n none :: post) base
        = { get_all_files_helper (pre ++ post) base with
            dirs := insert ⟨base ++ [n]⟩
              (get_all_files_helper (pre ++ post) base).dirs }) :=
  ⟨fun e he => helper_skip_middle e he base pre post,
   fun n => helper_dirfail_middle n base pre post⟩

/-- Witness for the amended C4 at a concrete input: an `Err` directory entry
between two healthy files contributes nothing. -/
theorem entry_failures_skip_entry_witness :
    DEnt.errEnt.isSkipped = true ∧
    get_all_files_helper [DEnt.fileE "a" 1, DEnt.errEnt, DEnt.fileE "b" 2] []
      = get_all_files_helper [DEnt.fileE "a" 1, DEnt.fileE "b" 2] [] :=
  ⟨rfl, (entry_failures_skip_entry [] [DEnt.fileE "a" 1] [DEnt.fileE "b" 2]).1
    DEnt.errEnt rfl⟩

theorem listingWF_tail {e : DEnt} {rest : List DEnt}
    (h : listingWF (e :: rest) = true) : listingWF rest = true := by
  simp only [listingWF, Bool.and_eq_true, decide_eq_true_eq] at h ⊢
  obtain ⟨hnd, hsubs⟩ := h
  constructor
  · have : List.Sublist (entNames rest) (entNames (e :: rest)) := by
      cases e <;> simp [entNames, List.filterMap_cons, DEnt.nameOf, List.Sublist.refl,
        List.sublist_cons_self]
    exact hnd.sublist this
  · cases e with
    | dirE _ sub =>
        cases sub with
        | none => simpa [subsWF] using hsubs
        | some _ =>
            have h2 := hsubs
            simp only [subsWF, Bool.and_eq_true] at h2
            exact h2.2
    | errEnt => simpa [subsWF] using hsubs
    | badMeta _ => simpa [subsWF] using hsubs
    | fileE _ _ => simpa [subsWF] using hsubs
    | linkE _ _ => simpa [subsWF] using hsubs

theorem listingWF_sub {n : String} {sub rest : List DEnt}
    (h : listingWF (DEnt.dirE n (some sub) :: rest) = true) :
    listingWF sub = true := by
  simp only [listingWF, Bool.and_eq_true, decide_eq_true_eq] at h
  have := h.2
  simp only [subsWF, Bool.and_eq_true] at this
  exact this.1

theorem listingWF_name_fresh {e : DEnt} {rest : List DEnt} {nm : String}
    (h : listingWF (e :: rest) = true) (hn : e.nameOf = some nm) :
    nm ∉ entNames rest := by
  simp only [listingWF, Bool.and_eq_true, decide_eq_true_eq] at h
  have hnd := h.1
  have : entNames (e :: rest) = nm :: entNames rest := by
    simp [entNames, List.filterMap_cons, hn]
  rw [this] at hnd
  exact (List.nodup_cons.mp hnd).1

/-- Every recorded path strictly extends the base, and its first component
past the base is the name of one of the listing's entries. -/
theorem helper_paths_shape (ents : List DEnt) (base : PathC) :
    (∀ f ∈ (get_all_files_helper ents base).files,
       ∃ n q, n ∈ entNames ents ∧ f.path = base ++ n :: q) ∧
    (∀ d ∈ (get_all_files_helper ents base).dirs,
       ∃ n q, n ∈ entNames ents ∧ d.path = base ++ n :: q) ∧
    (∀ l ∈ (get_all_files_helper ents base).symlinks,
       ∃ n q, n ∈ entNames ents ∧ l.path = base ++ n :: q) := by
  induction ents, base using get_all_files_helper.induct with
  | case1 base => simp [get_all_files_helper]
  | case2 rest base ih =>
      simpa [get_all_files_helper, entNames, List.filterMap_cons, DEnt.nameOf] using ih
  | case3 nm rest base ih =>
      simp only [get_all_files_helper, entNames, List.filterMap_cons, DEnt.nameOf]
      refine ⟨fun f hf => ?_, fun d hd => ?_, fun l hl => ?_⟩ <;>
        [obtain ⟨n, q, hn, hp⟩ := ih.1 f hf;
         obtain ⟨n, q, hn, hp⟩ := ih.2.1 d hd;
         obtain ⟨n, q, hn, hp⟩ := ih.2.2 l hl] <;>
        exact ⟨n, q, List.mem_cons_of_mem _ hn, hp⟩
  | case4 nm sz rest base ih =>
      simp only [get_all_files_helper, entNames, List.filterMap_cons, DEnt.nameOf]
      refine ⟨fun f hf => ?_, fun d hd => ?_, fun l hl => ?_⟩
      · rcases Finset.mem_insert.mp hf with hf | hf
        · exact ⟨nm, [], List.mem_cons_self _ _, by simp [hf]⟩
        · obtain ⟨n, q, hn, hp⟩ := ih.1 f hf
          exact ⟨n, q, List.mem_cons_of_mem _ hn, hp⟩
      · obtain ⟨n, q, hn, hp⟩ := ih.2.1 d hd
        exact ⟨n, q, List.mem_cons_of_mem _ hn, hp⟩
      · obtain ⟨n, q, hn, hp⟩ := ih.2.2 l hl
        exact ⟨n, q, List.mem_cons_of_mem _ hn, hp⟩
  | case5 nm rest base ih =>
      simp only [get_all_files_helper, entNames, List.filterMap_cons, DEnt.nameOf]
      refine ⟨fun f hf => ?_, fun d hd => ?_, fun l hl => ?_⟩
      · obtain ⟨n, q, hn, hp⟩ := ih.1 f hf
        exact ⟨n, q, List.mem_cons_of_mem _ hn, hp⟩
      · rcases Finset.mem_insert.mp hd with hd | hd
        · exact ⟨nm, [], List.mem_cons_self _ _, by simp [hd]⟩
        · obtain ⟨n, q, hn, hp⟩ := ih.2.1 d hd
          exact ⟨n, q, List.mem_cons_of_mem _ hn, hp⟩
      · obtain ⟨n, q, hn, hp⟩ := ih.2.2 l hl
        exact ⟨n, q, List.mem_cons_of_mem _ hn, hp⟩
  | case6 nm sub rest base ihsub ih =>
      simp only [get_all_files_helper, entNames, List.filterMap_cons, DEnt.nameOf]
      refine ⟨fun f hf => ?_, fun d hd => ?_, fun l hl => ?_⟩
      · rcases Finset.mem_union.mp hf with hf | hf
        · obtain ⟨n, q, _, hp⟩ := ihsub.1 f hf
          exact ⟨nm, n :: q, List.mem_cons_self _ _, by simp [hp]⟩
        · obtain ⟨n, q, hn, hp⟩ := ih.1 f hf
          exact ⟨n, q, List.mem_cons_of_mem _ hn, hp⟩
      · rcases Finset.mem_insert.mp hd with hd | hd
        · exact ⟨nm, [], List.mem_cons_self _ _, by simp [hd]⟩
        · rcases Finset.mem_union.mp hd with hd | hd
          · obtain ⟨n, q, _, hp⟩ := ihsub.2.1 d hd
            exact ⟨nm, n :: q, List.mem_cons_self _ _, by simp [hp]⟩
          · obtain ⟨n, q, hn, hp⟩ := ih.2.1 d hd
            exact ⟨n, q, List.mem_cons_of_mem _ hn, hp⟩
      · rcases Finset.mem_union.mp hl with hl | hl
        · obtain ⟨n, q, _, hp⟩ := ihsub.2.2 l hl
          exact ⟨nm, n :: q, List.mem_cons_self _ _, by simp [hp]⟩
        · obtain ⟨n, q, hn, hp⟩ := ih.2.2 l hl
          exact ⟨n, q, List.mem_cons_of_mem _ hn, hp⟩
  | case7 nm rest base ih =>
      simp only [get_all_files_helper, entNames, List.filterMap_cons, DEnt.nameOf]
      refine ⟨fun f hf => ?_, fun d hd => ?_, fun l hl => ?_⟩ <;>
        [obtain ⟨n, q, hn, hp⟩ := ih.1 f hf;
         obtain ⟨n, q, hn, hp⟩ := ih.2.1 d hd;
         obtain ⟨n, q, hn, hp⟩ := ih.2.2 l hl] <;>
        exact ⟨n, q, List.mem_cons_of_mem _ hn, hp⟩
  | case8 nm tgt rest base ih =>
      simp only [get_all_files_helper, entNames, List.filterMap_cons, DEnt.nameOf]
      refine ⟨fun f hf => ?_, fun d hd => ?_, fun l hl => ?_⟩
      · obtain ⟨n, q, hn, hp⟩ := ih.1 f hf
        exact ⟨n, q, List.mem_cons_of_mem _ hn, hp⟩
      · obtain ⟨n, q, hn, hp⟩ := ih.2.1 d hd
        exact ⟨n, q, List.mem_cons_of_mem _ hn, hp⟩
      · rcases Finset.mem_insert.mp hl with hl | hl
        · exact ⟨nm, [], List.mem_cons_self _ _, by simp [hl]⟩
        · obtain ⟨n, q, hn, hp⟩ := ih.2.2 l hl
          exact ⟨n, q, List.mem_cons_of_mem _ hn, hp⟩

theorem append_cons_inj {base : PathC} {m n : String} {u v : List String}
    (h : base ++ m :: u = base ++ n :: v) : m = n ∧ u = v := by
  induction base with
  | nil => simpa using h
  | cons b base ih => exact ih (by simpa using h)

theorem fresh_single_ne {ns : List String} {base : PathC} {nm : String} {p : PathC}
    (hp : ∃ n q, n ∈ ns ∧ p = base ++ n :: q) (hfresh : nm ∉ ns) :
    base ++ [nm] ≠ p := by
  obtain ⟨n, q, hn, rfl⟩ := hp
  intro h
  obtain ⟨rfl, -⟩ := append_cons_inj h
  exact hfresh hn

theorem head_ne_of_shapes {base : PathC} {nm : String} {ns : List String}
    {p₁ p₂ : PathC} (h₁ : ∃ u, p₁ = base ++ nm :: u)
    (h₂ : ∃ n q, n ∈ ns ∧ p₂ = base ++ n :: q) (hfresh : nm ∉ ns) : p₁ ≠ p₂ := by
  obtain ⟨u, rfl⟩ := h₁
  obtain ⟨n, q, hn, rfl⟩ := h₂
  intro h
  obtain ⟨rfl, -⟩ := append_cons_inj h
  exact hfresh hn

theorem single_ne_extend {base : PathC} {nm n : String} {q : List String} :
    base ++ [nm] ≠ base ++ nm :: n :: q := by
  intro h
  obtain ⟨-, h2⟩ := append_cons_inj h
  cases h2

/-- For a well-formed listing, all recorded relative paths are mutually
consistent: entries of one set with equal paths are equal, and no path is
shared between two of the three sets. -/
theorem helper_paths_unique (ents : List DEnt) (base : PathC) :
    listingWF ents = true →
    (∀ f₁ ∈ (get_all_files_helper ents base).files,
     ∀ f₂ ∈ (get_all_files_helper ents base).files, f₁.path = f₂.path → f₁ = f₂) ∧
    (∀ l₁ ∈ (get_all_files_helper ents base).symlinks,
     ∀ l₂ ∈ (get_all_files_helper ents base).symlinks, l₁.path = l₂.path → l₁ = l₂) ∧
    (∀ f ∈ (get_all_files_helper ents base).files,
     ∀ d ∈ (get_all_files_helper ents base).dirs, f.path ≠ d.path) ∧
    (∀ f ∈ (get_all_files_helper ents base).files,
     ∀ l ∈ (get_all_files_helper ents base).symlinks, f.path ≠ l.path) ∧
    (∀ d ∈ (get_all_files_helper ents base).dirs,
     ∀ l ∈ (get_all_files_helper ents base).symlinks, d.path ≠ l.path) := by
  induction ents, base using get_all_files_helper.induct with
  | case1 base =>
      intro _
      simp [get_all_files_helper]
  | case2 rest base ih =>
      intro hwf
      simpa [get_all_files_helper] using ih (listingWF_tail hwf)
  | case3 nm rest base ih =>
      intro hwf
      simpa [get_all_files_helper] using ih (listingWF_tail hwf)
  | case7 nm rest base ih =>
      intro hwf
      simpa [get_all_files_helper] using ih (listingWF_tail hwf)
  | case4 nm sz rest base ih =>
      intro hwf
      obtain ⟨h1, h2, h3, h4, h5⟩ := ih (listingWF_tail hwf)
      have hfresh : nm ∉ entNames rest := listingWF_name_fresh hwf rfl
      have hsh := helper_paths_shape rest base
      simp only [get_all_files_helper]
      refine ⟨?_, h2, ?_, ?_, h5⟩
      · intro f₁ hf₁ f₂ hf₂ hpath
        rcases Finset.mem_insert.mp hf₁ with rfl | hf₁
        · rcases Finset.mem_insert.mp hf₂ with rfl | hf₂
          · rfl
          · exact absurd hpath (fresh_single_ne (hsh.1 f₂ hf₂) hfresh)
        · rcases Finset.mem_insert.mp hf₂ with rfl | hf₂
          · exact absurd hpath.symm (fresh_single_ne (hsh.1 f₁ hf₁) hfresh)
          · exact h1 f₁ hf₁ f₂ hf₂ hpath
      · intro f hf d hd
        rcases Finset.mem_insert.mp hf with rfl | hf
        · exact fresh_single_ne (hsh.2.1 d hd) hfresh
        · exact h3 f hf d hd
      · intro f hf l hl
        rcases Finset.mem_insert.mp hf with rfl | hf
        · exact fresh_single_ne (hsh.2.2 l hl) hfresh
        · exact h4 f hf l hl
  | case5 nm rest base ih =>
      intro hwf
      obtain ⟨h1, h2, h3, h4, h5⟩ := ih (listingWF_tail hwf)
      have hfresh : nm ∉ entNames rest := listingWF_name_fresh hwf rfl
      have hsh := helper_paths_shape rest base
      simp only [get_all_files_helper]
      refine ⟨h1, h2, ?_, h4, ?_⟩
      · intro f hf d hd
        rcases Finset.mem_insert.mp hd with rfl | hd
        · exact (fresh_single_ne (hsh.1 f hf) hfresh).symm
        · exact h3 f hf d hd
      · intro d hd l hl
        rcases Finset.mem_insert.mp hd with rfl | hd
        · exact fresh_single_ne (hsh.2.2 l hl) hfresh
        · exact h5 d hd l hl
  | case8 nm tgt rest base ih =>
      intro hwf
      obtain ⟨h1, h2, h3, h4, h5⟩ := ih (listingWF_tail hwf)
      have hfresh : nm ∉ entNames rest := listingWF_name_fresh hwf rfl
      have hsh := helper_paths_shape rest base
      simp only [get_all_files_helper]
      refine ⟨h1, ?_, h3, ?_, ?_⟩
      · intro l₁ hl₁ l₂ hl₂ hpath
        rcases Finset.mem_insert.mp hl₁ with rfl | hl₁
        · rcases Finset.mem_insert.mp hl₂ with rfl | hl₂
          · rfl
          · exact absurd hpath (fresh_single_ne (hsh.2.2 l₂ hl₂) hfresh)
        · rcases Finset.mem_insert.mp hl₂ with rfl | hl₂
          · exact absurd hpath.symm (fresh_single_ne (hsh.2.2 l₁ hl₁) hfresh)
          · exact h2 l₁ hl₁ l₂ hl₂ hpath
      · intro f hf l hl
        rcases Finset.mem_insert.mp hl with rfl | hl
        · exact (fresh_single_ne (hsh.1 f hf) hfresh).symm
        · exact h4 f hf l hl
      · intro d hd l hl
        rcases Finset.mem_insert.mp hl with rfl | hl
        · exact (fresh_single_ne (hsh.2.1 d hd) hfresh).symm
        · exact h5 d hd l hl
  | case6 nm sub rest base ihsub ih =>
      intro hwf
      obtain ⟨s1, s2, s3, s4, s5⟩ := ihsub (listingWF_sub hwf)
      obtain ⟨h1, h2, h3, h4, h5⟩ := ih (listingWF_tail hwf)
      have hfresh : nm ∉ entNames rest := listingWF_name_fresh hwf rfl
      have hshr := helper_paths_shape rest base
      have hshs := helper_paths_shape sub (base ++ [nm])
      have hsubF : ∀ f ∈ (get_all_files_helper sub (base ++ [nm])).files,
          ∃ n q, f.path = base ++ nm :: n :: q := by
        intro f hf
        obtain ⟨n, q, -, hp⟩ := hshs.1 f hf
        exact ⟨n, q, by simpa [List.append_assoc] using hp⟩
      have hsubD : ∀ d ∈ (get_all_files_helper sub (base ++ [nm])).dirs,
          ∃ n q, d.path = base ++ nm :: n :: q := by
        intro d hd
        obtain ⟨n, q, -, hp⟩ := hshs.2.1 d hd
        exact ⟨n, q, by simpa [List.append_assoc] using hp⟩
      have hsubL : ∀ l ∈ (get_all_files_helper sub (base ++ [nm])).symlinks,
          ∃ n q, l.path = base ++ nm :: n :: q := by
        intro l hl
        obtain ⟨n, q, -, hp⟩ := hshs.2.2 l hl
        exact ⟨n, q, by simpa [List.append_assoc] using hp⟩
      have hcross : ∀ {p₁ p₂ : PathC}, (∃ n q, p₁ = base ++ nm :: n :: q) →
          (∃ n q, n ∈ entNames rest ∧ p₂ = base ++ n :: q) → p₁ ≠ p₂ := by
        rintro p₁ p₂ ⟨n, q, rfl⟩ hp₂
        exact head_ne_of_shapes ⟨n :: q, rfl⟩ hp₂ hfresh
      simp only [get_all_files_helper]
      refine ⟨?_, ?_, ?_, ?_, ?_⟩
      · intro f₁ hf₁ f₂ hf₂ hpath
        rcases Finset.mem_union.mp hf₁ with hf₁ | hf₁ <;>
          rcases Finset.mem_union.mp hf₂ with hf₂ | hf₂
        · exact s1 f₁ hf₁ f₂ hf₂ hpath
        · exact absurd hpath (hcross (hsubF f₁ hf₁) (hshr.1 f₂ hf₂))
        · exact absurd hpath.symm (hcross (hsubF f₂ hf₂) (hshr.1 f₁ hf₁))
        · exact h1 f₁ hf₁ f₂ hf₂ hpath
      · intro l₁ hl₁ l₂ hl₂ hpath
        rcases Finset.mem_union.mp hl₁ with hl₁ | hl₁ <;>
          rcases Finset.mem_union.mp hl₂ with hl₂ | hl₂
        · exact s2 l₁ hl₁ l₂ hl₂ hpath
        · exact absurd hpath (hcross (hsubL l₁ hl₁) (hshr.2.2 l₂ hl₂))
        · exact absurd hpath.symm (hcross (hsubL l₂ hl₂) (hshr.2.2 l₁ hl₁))
        · exact h2 l₁ hl₁ l₂ hl₂ hpath
      · intro f hf d hd
        rcases Finset.mem_insert.mp hd with rfl | hd
        · rcases Finset.mem_union.mp hf with hf | hf
          · obtain ⟨n, q, hp⟩ := hsubF f hf
            rw [hp]
            exact single_ne_extend.symm
          · exact (fresh_single_ne (hshr.1 f hf) hfresh).symm
        · rcases Finset.mem_union.mp hd with hd | hd
          · rcases Finset.mem_union.mp hf with hf | hf
            · exact s3 f hf d hd
            · exact fun hc => (hcross (hsubD d hd) (hshr.1 f hf)) hc.symm
          · rcases Finset.mem_union.mp hf with hf | hf
            · exact hcross (hsubF f hf) (hshr.2.1 d hd)
            · exact h3 f hf d hd
      · intro f hf l hl
        rcases Finset.mem_union.mp hf with hf | hf <;>
          rcases Finset.mem_union.mp hl with hl | hl
        · exact s4 f hf l hl
        · exact hcross (hsubF f hf) (hshr.2.2 l hl)
        · exact fun hc => (hcross (hsubL l hl) (hshr.1 f hf)) hc.symm
        · exact h4 f hf l hl
      · intro d hd l hl
        rcases Finset.mem_insert.mp hd with rfl | hd
        · rcases Finset.mem_union.mp hl with hl | hl
          · obtain ⟨n, q, hp⟩ := hsubL l hl
            rw [hp]
            exact single_ne_extend
          · exact fresh_single_ne (hshr.2.2 l hl) hfresh
        · rcases Finset.mem_union.mp hd with hd | hd
          · rcases Finset.mem_union.mp hl with hl | hl
            · exact s5 d hd l hl
            · exact hcross (hsubD d hd) (hshr.2.2 l hl)
          · rcases Finset.mem_union.mp hl with hl | hl
            · exact fun hc => (hcross (hsubL l hl) (hshr.2.1 d hd)) hc.symm
            · exact h5 d hd l hl

/-- C8: every snapshot produced by `get_all_files` from a well-formed root
listing (distinct entry names within each directory, as on a real
filesystem) has no duplicate relative path within any of its three sets, and
the three sets are pairwise disjoint on relative paths — they partition the
traversed objects. -/
theorem fileSets_partition (root : List DEnt) (s : FileSets)
    (hwf : listingWF root = true)
    (hok : get_all_files (some root) = Except.ok s) :
    (∀ f₁ ∈ s.files, ∀ f₂ ∈ s.files, f₁.path = f₂.path → f₁ = f₂) ∧
    (∀ d₁ ∈ s.dirs, ∀ d₂ ∈ s.dirs, d₁.path = d₂.path → d₁ = d₂) ∧
    (∀ l₁ ∈ s.symlinks, ∀ l₂ ∈ s.symlinks, l₁.path = l₂.path → l₁ = l₂) ∧
    (∀ f ∈ s.files, ∀ d ∈ s.dirs, f.path ≠ d.path) ∧
    (∀ f ∈ s.files, ∀ l ∈ s.symlinks, f.path ≠ l.path) ∧
    (∀ d ∈ s.dirs, ∀ l ∈ s.symlinks, d.path ≠ l.path) := by
  have h0 : Except.ok (ε := Unit) (get_all_files_helper root []) = Except.ok s := hok
  injection h0 with h0
  subst h0
  obtain ⟨u1, u2, u3, u4, u5⟩ := helper_paths_unique root [] hwf
  refine ⟨u1, ?_, u2, u3, u4, u5⟩
  intro d₁ _ d₂ _ h
  cases d₁
  cases d₂
  exact congrArg Dir.mk h

/-- A small concrete well-formed listing: a file, a subdirectory holding a
file and a symlink, and a symlink, all with distinct names per directory. -/
def sampleListing : List DEnt :=
  [DEnt.fileE "a" 1,
   DEnt.dirE "d" (some [DEnt.fileE "b" 2, DEnt.linkE "s" (some ["t"])]),
   DEnt.linkE "c" (some ["u"])]

/-- Witness for C8: the partition properties hold at a concrete listing. -/
theorem fileSets_partition_witness :
    listingWF sampleListing = true ∧
    (∀ f₁ ∈ (get_all_files_helper sampleListing []).files,
     ∀ f₂ ∈ (get_all_files_helper sampleListing []).files,
       f₁.path = f₂.path → f₁ = f₂) ∧
    (∀ d₁ ∈ (get_all_files_helper sampleListing []).dirs,
     ∀ d₂ ∈ (get_all_files_helper sampleListing []).dirs,
       d₁.path = d₂.path → d₁ = d₂) ∧
    (∀ l₁ ∈ (get_all_files_helper sampleListing []).symlinks,
     ∀ l₂ ∈ (get_all_files_helper sampleListing []).symlinks,
       l₁.path = l₂.path → l₁ = l₂) ∧
    (∀ f ∈ (get_all_files_helper sampleListing []).files,
     ∀ d ∈ (get_all_files_helper sampleListing []).dirs, f.path ≠ d.path) ∧
    (∀ f ∈ (get_all_files_helper sampleListing []).files,
     ∀ l ∈ (get_all_files_helper sampleListing []).symlinks, f.path ≠ l.path) ∧
    (∀ d ∈ (get_all_files_helper sampleListing []).dirs,
     ∀ l ∈ (get_all_files_helper sampleListing []).symlinks, d.path ≠ l.path) :=
  ⟨by simp [sampleListing, listingWF, subsWF, entNames, DEnt.nameOf],
   fileSets_partition sampleListing (get_all_files_helper sampleListing [])
     (by simp [sampleListing, listingWF, subsWF, entNames, DEnt.nameOf]) rfl⟩

/-- A concrete filesystem: only `s/a` is readable, holding one byte. -/
def fsSample : FS := fun p => if p = ["s", "a"] then some [7] else none

/-- A concrete filesystem with two distinct zero-length readable files. -/
def fsTwoEmpty : FS := fun p =>
  if p = ["s", "a"] then some [] else if p = ["r", "b"] then some [] else none

/-- Witness for C1: with an empty flag set (fast strategy), a readable source
`s/a` and an unreadable destination `d/a`, the digests differ and a copy is
performed. -/
theorem compare_and_copy_file_copies_iff_witness :
    Flag.contains 0 Flag.SECURE = false ∧
    ((compare_and_copy_file fileOps List.length id (File.mk ["a"] 1)
        ["s"] ["d"] 0 fsSample).2 = true ↔
      (hash_file fileOps List.length (File.mk ["a"] 1) ["s"] fsSample = none ∨
       hash_file fileOps List.length (File.mk ["a"] 1) ["s"] fsSample
         ≠ hash_file fileOps List.length (File.mk ["a"] 1) ["d"] fsSample)) :=
  ⟨rfl,
   (compare_and_copy_file_copies_iff fileOps List.length id (File.mk ["a"] 1)
     ["s"] ["d"] 0 fsSample).2 rfl⟩

theorem sort_sample_eq :
    sort_files dirOps [Dir.mk ["a"], Dir.mk ["a", "b"]]
      = [Dir.mk ["a", "b"], Dir.mk ["a"]] := by
  simp [sort_files, List.mergeSort, dirOps]

/-- Witness for C2 at a concrete input: in the sorted output
`[a/b, a]`, the entry at position 1 (`a`) is a strict prefix of the entry at
position 0 (`a/b`), and indeed `0 < 1`. -/
theorem sort_files_depth_ordering_witness :
    (1 < (sort_files dirOps [Dir.mk ["a"], Dir.mk ["a", "b"]]).length) ∧
    (0 < (sort_files dirOps [Dir.mk ["a"], Dir.mk ["a", "b"]]).length) ∧
    (dirOps.path ((sort_files dirOps [Dir.mk ["a"], Dir.mk ["a", "b"]]).getD 1 (Dir.mk []))
      <+: dirOps.path ((sort_files dirOps [Dir.mk ["a"], Dir.mk ["a", "b"]]).getD 0 (Dir.mk []))) ∧
    (dirOps.path ((sort_files dirOps [Dir.mk ["a"], Dir.mk ["a", "b"]]).getD 1 (Dir.mk []))
      ≠ dirOps.path ((sort_files dirOps [Dir.mk ["a"], Dir.mk ["a", "b"]]).getD 0 (Dir.mk []))) ∧
    (List.Sorted (fun a b => (dirOps.path b).length ≤ (dirOps.path a).length)
      (sort_files dirOps [Dir.mk ["a"], Dir.mk ["a", "b"]]) ∧ 0 < 1) :=
  ⟨by rw [sort_sample_eq]; decide,
   by rw [sort_sample_eq]; decide,
   by rw [sort_sample_eq]; decide,
   by rw [sort_sample_eq]; decide,
   sort_files_depth_ordering dirOps [Dir.mk ["a"], Dir.mk ["a", "b"]]
     (Dir.mk []) (Dir.mk []) 1 0
     (by rw [sort_sample_eq]; decide)
     (by rw [sort_sample_eq]; decide)
     (by rw [sort_sample_eq]; decide)
     (by rw [sort_sample_eq]; decide)⟩

/-- Witness for C6: `s/a` is readable with one byte, so the fast digest is
present and equals the digest of the content; at base `d` the same relative
path is unreadable, so both digests are absent. -/
theorem hash_file_absent_semantics_witness :
    (fsSample (["s"] ++ fileOps.path (File.mk ["a"] 1)) = some [7] ∧
     hash_file fileOps List.length (File.mk ["a"] 1) ["s"] fsSample
       = some (List.length [7])) ∧
    (hash_file fileOps List.length (File.mk ["a"] 1) ["d"] fsSample = none ↔
     fsSample (["d"] ++ fileOps.path (File.mk ["a"] 1)) = none) :=
  ⟨⟨rfl,
    (hash_file_absent_semantics fileOps List.length id (File.mk ["a"] 1)
      ["s"] fsSample).2.1 [7] rfl⟩,
   (hash_file_absent_semantics fileOps List.length id (File.mk ["a"] 1)
     ["d"] fsSample).1⟩

/-- Witness for C7: two distinct zero-length files — different relative
paths, different recorded sizes, different base locations — have equal fast
digests and equal secure digests. -/
theorem hash_file_content_only_witness :
    fsTwoEmpty (["s"] ++ fileOps.path (File.mk ["a"] 0)) = some [] ∧
    fsTwoEmpty (["r"] ++ fileOps.path (File.mk ["b"] 5)) = some [] ∧
    (hash_file fileOps List.length (File.mk ["a"] 0) ["s"] fsTwoEmpty
       = hash_file fileOps List.length (File.mk ["b"] 5) ["r"] fsTwoEmpty ∧
     hash_file_secure fileOps id (File.mk ["a"] 0) ["s"] fsTwoEmpty
       = hash_file_secure fileOps id (File.mk ["b"] 5) ["r"] fsTwoEmpty) :=
  ⟨rfl, rfl,
   hash_file_content_only fileOps fileOps List.length id (File.mk ["a"] 0)
     (File.mk ["b"] 5) ["s"] ["r"] fsTwoEmpty fsTwoEmpty [] rfl rfl⟩

end LuminS
